import Mathlib

/-!
Verification of the frame-execution core of `bevy_render` (crate root
`src/crates/bevy_render/src/lib.rs`) against its natural-language
specification.  The visible source is the plugin wiring (`RenderPlugin::build`,
the `stage` module); the pipeline compiler, render graph, graph executor and
camera systems live in sibling modules that are not part of the excerpt, so
those components are modelled from the specification, as marked on each
definition.
-/

namespace BevyRender

/-! ## Stage names (from `pub mod stage`, lib.rs lines 52-63) -/

def RENDER_RESOURCE : String := "render_resource"

def RENDER_GRAPH_SYSTEMS : String := "render_graph_systems"

def COMPUTE : String := "compute"

def DRAW : String := "draw"

def RENDER : String := "render"

def POST_RENDER : String := "post_render"

/-- Modelled from the spec: `bevy_asset::stage::ASSET_EVENTS`, the stage the
render stages are anchored after (the constant itself is outside the excerpt). -/
def ASSET_EVENTS : String := "asset_events"

/-- Modelled from the spec: `bevy_app::stage::PRE_UPDATE` (outside the excerpt). -/
def PRE_UPDATE : String := "pre_update"

/-- Modelled from the spec: `bevy_app::stage::POST_UPDATE` (outside the excerpt). -/
def POST_UPDATE : String := "post_update"

/-- Modelled from the spec: `bevy_app`'s `Schedule::add_stage_after` (outside
the excerpt): the new stage is inserted into the stage order immediately after
the target stage; a missing target is a hard error, modelled as `none`. -/
def addStageAfter (order : List String) (target newStage : String) :
    Option (List String) :=
  match order with
  | [] => none
  | s :: rest =>
    if s = target then some (s :: newStage :: rest)
    else (addStageAfter rest target newStage).map (fun r => s :: r)

/-- Modelled from the spec: the enclosing app's stage order at the time
`RenderPlugin::build` runs (default app stages plus the asset stages); only
the presence and position of `ASSET_EVENTS` matters to the render stages. -/
def appStages : List String :=
  ["first", PRE_UPDATE, "update", POST_UPDATE, "last", "load_assets", ASSET_EVENTS]

/-- The six `add_stage_after` calls of `RenderPlugin::build`
(lib.rs lines 81-86), in program order. -/
def renderPluginStageInserts : List (String × String) :=
  [(ASSET_EVENTS, RENDER_RESOURCE),
   (RENDER_RESOURCE, RENDER_GRAPH_SYSTEMS),
   (RENDER_GRAPH_SYSTEMS, COMPUTE),
   (RENDER_GRAPH_SYSTEMS, DRAW),
   (DRAW, RENDER),
   (RENDER, POST_RENDER)]

/-- The app's stage order after `RenderPlugin::build` has registered all of
its stages. -/
def renderStageOrder : Option (List String) :=
  renderPluginStageInserts.foldl
    (fun acc ins => acc.bind (fun o => addStageAfter o ins.1 ins.2))
    (some appStages)

/-! ## System registrations (from `RenderPlugin::build`, lib.rs lines 116-155)

Within one stage, systems run in registration order (the source relies on
this: "registration order matters here. this must come after all
camera_system::<T> systems"). -/

def clear_draw_system : String := "clear_draw_system"

def active_cameras_system : String := "active_cameras_system"

def camera_system_orthographic : String := "camera_system::<OrthographicProjection>"

def camera_system_perspective : String := "camera_system::<PerspectiveProjection>"

def visible_entities_system : String := "visible_entities_system"

def mesh_resource_provider_system : String := "mesh_resource_provider_system"

def texture_resource_system : String := "texture_resource_system"

def render_graph_schedule_executor_system : String := "render_graph_schedule_executor_system"

def dispatch_compute_pipelines_system : String := "dispatch_compute_pipelines_system"

def draw_render_pipelines_system : String := "draw_render_pipelines_system"

def clear_shader_defs_system : String := "clear_shader_defs_system"

/-- Every `add_system_to_stage` call of `RenderPlugin::build`
(lib.rs lines 116-155), as (stage, system) pairs in program order. -/
def renderPluginSystems : List (String × String) :=
  [(PRE_UPDATE, clear_draw_system),
   (POST_UPDATE, active_cameras_system),
   (POST_UPDATE, camera_system_orthographic),
   (POST_UPDATE, camera_system_perspective),
   (POST_UPDATE, visible_entities_system),
   (RENDER_RESOURCE, mesh_resource_provider_system),
   (RENDER_RESOURCE, texture_resource_system),
   (RENDER_GRAPH_SYSTEMS, render_graph_schedule_executor_system),
   (COMPUTE, dispatch_compute_pipelines_system),
   (DRAW, draw_render_pipelines_system),
   (POST_RENDER, clear_shader_defs_system)]

/-- The systems registered to a given stage, in execution order. -/
def systemsInStage (s : String) : List String :=
  (renderPluginSystems.filter (fun p => p.1 = s)).map (fun p => p.2)

/-! ## Pipeline specialization and compiler (spec sections 3, 4.1)

The `pipeline` module is outside the excerpt; the cache discipline is
modelled from the spec. -/

/-- Character-wise lexicographic comparison used to canonicalise the
set-valued specialization fields. -/
def charsLe : List Char → List Char → Bool
  | [], _ => true
  | _ :: _, [] => false
  | a :: as, b :: bs =>
    if a.toNat < b.toNat then true
    else if b.toNat < a.toNat then false
    else charsLe as bs

/-- Lexicographic comparison on strings (total, transitive, antisymmetric). -/
def strLe (a b : String) : Bool := charsLe a.data b.data

/-- Canonical representative of a finite set of names: duplicates removed,
then sorted.  Two name lists denote the same set iff they canonicalise to the
same list. -/
def canonSet (l : List String) : List String :=
  List.insertionSort (fun a b => strLe a b = true) l.dedup

/-- Modelled from the spec: `PipelineSpecialization` (module `pipeline`,
outside the excerpt): shader preprocessor defines, the dynamic-binding set,
primitive topology, vertex buffer layout and multisample count.  The define
and dynamic-binding collections are hash sets in the source; they are held
here as canonical sorted lists, so cache identity is structural, not
positional. -/
structure PipelineSpecialization where
  shader_defs : List String
  dynamic_bindings : List String
  primitive_topology : Nat
  vertex_buffer_layout : List (String × Nat)
  sample_count : Nat
deriving DecidableEq

/-- Builds a specialization from raw define / dynamic-binding lists, as a
draw call would each frame; the set-valued fields are canonicalised. -/
def mkPipelineSpecialization (defs dyn : List String) (topo : Nat)
    (layout : List (String × Nat)) (samples : Nat) : PipelineSpecialization :=
  ⟨canonSet defs, canonSet dyn, topo, layout, samples⟩

/-- A pipeline cache key: descriptor identity paired with the specialization. -/
abbrev PipelineKey := Nat × PipelineSpecialization

/-- Modelled from the spec: the `PipelineCompiler` resource (lib.rs line 109
initialises it): a cache from (descriptor, specialization) keys to
compiled-pipeline handles, plus the next fresh handle. -/
structure PipelineCompiler where
  cache : List (PipelineKey × Nat)
  nextHandle : Nat

def emptyCompiler : PipelineCompiler := ⟨[], 0⟩

/-- Association lookup in the compiled-pipeline cache. -/
def cacheLookup : List (PipelineKey × Nat) → PipelineKey → Option Nat
  | [], _ => none
  | (k, h) :: rest, key => if k = key then some h else cacheLookup rest key

/-- Modelled from the spec: `get_or_compile(descriptor, specialization)`.
On a cache hit the stored handle is returned with no backend work; on a miss
the backend compile routine runs once, the fresh handle is stored under the
key and returned.  The `Bool` records whether this call invoked the backend. -/
def get_or_compile (c : PipelineCompiler) (key : PipelineKey) :
    Nat × PipelineCompiler × Bool :=
  match cacheLookup c.cache key with
  | some h => (h, c, false)
  | none => (c.nextHandle, ⟨(key, c.nextHandle) :: c.cache, c.nextHandle + 1⟩, true)

/-- A run of `get_or_compile` calls: the final compiler state together with
the log of calls as (key, returned handle, backend-invoked) entries. -/
def runCompiler : PipelineCompiler → List PipelineKey →
    PipelineCompiler × List (PipelineKey × Nat × Bool)
  | c, [] => (c, [])
  | c, k :: ks =>
    ((runCompiler (get_or_compile c k).2.1 ks).1,
      (k, (get_or_compile c k).1, (get_or_compile c k).2.2) ::
        (runCompiler (get_or_compile c k).2.1 ks).2)

/-- The (handle, backend-invoked) outcomes of the calls made with key `k`. -/
def keyCalls (log : List (PipelineKey × Nat × Bool)) (k : PipelineKey) :
    List (Nat × Bool) :=
  (log.filter (fun e => decide (e.1 = k))).map (fun e => e.2)

/-- Cache well-formedness: every stored handle is below the fresh counter and
stored handles are pairwise distinct. -/
def CacheWF (c : PipelineCompiler) : Prop :=
  (∀ e ∈ c.cache, e.2 < c.nextHandle) ∧
    c.cache.Pairwise (fun a b => a.2 ≠ b.2)

/-- The spec's example specialization: defines {USE_FOG}, triangle-list
topology (encoded 4), sample count 1. -/
def specFog : PipelineSpecialization :=
  mkPipelineSpecialization ["USE_FOG"] [] 4 [] 1

/-- `specFog` without the extra shader define. -/
def specPlain : PipelineSpecialization :=
  mkPipelineSpecialization [] [] 4 [] 1

def keyFog : PipelineKey := (0, specFog)

def keyPlain : PipelineKey := (0, specPlain)

/-! ## Render graph (spec sections 3, 4.3)

The `render_graph` module is outside the excerpt; node/edge bookkeeping,
cycle detection and schedule derivation are modelled from the spec. -/

/-- Modelled from the spec: the `RenderGraph` resource (lib.rs line 108
initialises it): named nodes kept in insertion order, plus directed
dependency edges (from, to). -/
structure RenderGraph where
  nodes : List String
  edges : List (String × String)
deriving DecidableEq

/-- The single-edge step relation of a graph. -/
abbrev EdgeStep (g : RenderGraph) (a b : String) : Prop := (a, b) ∈ g.edges

/-- A graph is a DAG when no node reaches itself through one or more edges. -/
def IsDAG (g : RenderGraph) : Prop :=
  ∀ n, ¬ Relation.TransGen (EdgeStep g) n n

/-- Construction-time validity: unique node names and edges referencing only
known nodes (the graph API rejects everything else at build time). -/
def ValidGraph (g : RenderGraph) : Prop :=
  g.nodes.Nodup ∧ ∀ e ∈ g.edges, e.1 ∈ g.nodes ∧ e.2 ∈ g.nodes

/-- A node is ready once every edge into it comes from an already-scheduled
node. -/
def ready (edges : List (String × String)) (acc : List String) (n : String) :
    Bool :=
  edges.all (fun e => if e.2 = n then decide (e.1 ∈ acc) else true)

/-- Modelled from the spec: schedule derivation (Kahn's algorithm) with the
spec's tie-break: among simultaneously eligible nodes the one earliest in
insertion order runs next.  `acc` holds already-scheduled nodes, most recent
first; `none` means no progress is possible (a cycle). -/
def scheduleGo (g : RenderGraph) :
    Nat → List String → List String → Option (List String)
  | 0, rem, acc => if rem.isEmpty then some acc else none
  | fuel + 1, rem, acc =>
    match rem.find? (ready g.edges acc) with
    | some n => scheduleGo g fuel (rem.erase n) (n :: acc)
    | none => if rem.isEmpty then some acc else none

/-- The linear schedule derived from the graph topology. -/
def schedule (g : RenderGraph) : Option (List String) :=
  (scheduleGo g g.nodes.length g.nodes []).map List.reverse

/-- Successors of `n` in an edge list. -/
def succNodes (edges : List (String × String)) (n : String) : List String :=
  (edges.filter (fun e => decide (e.1 = n))).map (fun e => e.2)

/-- Bounded reachability: a path from `a` to `b` of at most `fuel` edges. -/
def reachableWithin (edges : List (String × String)) :
    Nat → String → String → Bool
  | 0, a, b => decide (a = b)
  | fuel + 1, a, b =>
    decide (a = b) ||
      (succNodes edges a).any (fun c => reachableWithin edges fuel c b)

/-- Modelled from the spec: the incremental reachability check used by edge
insertion — adding (a, b) would create a cycle iff b already reaches a. -/
def wouldCycle (g : RenderGraph) (a b : String) : Bool :=
  reachableWithin g.edges g.edges.length b a

/-- Raw edge insertion, no checks. -/
def addEdgeRaw (g : RenderGraph) (a b : String) : RenderGraph :=
  ⟨g.nodes, (a, b) :: g.edges⟩

/-- Modelled from the spec: `add_node_edge(from, to)`: an unknown endpoint or
an edge that would create a cycle is an immediate construction error and the
graph is left exactly as it was; otherwise the edge is inserted. -/
def add_node_edge (g : RenderGraph) (a b : String) :
    Except String Unit × RenderGraph :=
  if a ∈ g.nodes ∧ b ∈ g.nodes then
    if wouldCycle g a b then (Except.error "would create a cycle", g)
    else (Except.ok (), addEdgeRaw g a b)
  else (Except.error "unknown node", g)

/-- `walkPath edges a l b`: `l` lists the successive targets of an edge path
from `a` to `b`. -/
def walkPath (edges : List (String × String)) :
    String → List String → String → Prop
  | a, [], b => a = b
  | a, c :: l, b => (a, c) ∈ edges ∧ walkPath edges c l b

/-- Scheduled-stack ordering invariant: whenever an edge target appears in
the stack (most recent first), its source appears deeper in the stack. -/
def StackOrdered (edges : List (String × String)) (acc : List String) : Prop :=
  ∀ e ∈ edges, ∀ l1 l2, acc = l1 ++ e.2 :: l2 → e.1 ∈ l2

/-- The spec's end-to-end example graph: MainPass depends on Shadow. -/
def gShadow : RenderGraph :=
  ⟨["Shadow", "MainPass"], [("Shadow", "MainPass")]⟩

/-! ## Graph executor and missing-binding handling (spec sections 4.4, 7c, 8) -/

/-- Modelled from the spec: a render-graph node as the executor sees it: a
name, the binding names its work requires, and the output bindings it
produces. -/
structure GraphNode where
  name : String
  inputs : List String
  outputs : List (String × Nat)
deriving DecidableEq

/-- The render-resource binding set: binding name to resource handle. -/
abbrev BindingSet := List (String × Nat)

/-- Binding lookup by name. -/
def bindingLookup : BindingSet → String → Option Nat
  | [], _ => none
  | (n, v) :: rest, key => if n = key then some v else bindingLookup rest key

/-- Executor state for one frame: current bindings, the missing-binding
names reported so far, and the nodes that have executed. -/
structure ExecState where
  bindings : BindingSet
  reported : List String
  executed : List String
deriving DecidableEq

/-- The required inputs of `n` absent from the current binding set. -/
def missingInputs (st : ExecState) (n : GraphNode) : List String :=
  n.inputs.filter (fun i => (bindingLookup st.bindings i).isNone)

/-- Record missing-binding names, each distinct name at most once. -/
def addReports (rep : List String) : List String → List String
  | [] => rep
  | m :: ms => addReports (if m ∈ rep then rep else rep ++ [m]) ms

/-- Modelled from the spec: visiting one node: if any required binding is
missing, the node is skipped for the frame and each distinct missing name is
reported once; otherwise the node's work runs and its outputs are stored. -/
def runNode (st : ExecState) (n : GraphNode) : ExecState :=
  if missingInputs st n = [] then
    { st with bindings := st.bindings ++ n.outputs,
              executed := st.executed ++ [n.name] }
  else
    { st with reported := addReports st.reported (missingInputs st n) }

/-- Modelled from the spec: the per-frame schedule walk of
`render_graph_schedule_executor_system` (lib.rs line 148): every node of the
schedule is visited in order, regardless of earlier failures. -/
def executeSchedule (sched : List GraphNode) (st : ExecState) : ExecState :=
  sched.foldl runNode st

/-- A frame's world: the cached schedule plus the per-frame executor state. -/
structure FrameWorld where
  cachedSchedule : List GraphNode
  state : ExecState
deriving DecidableEq

/-- One frame of graph execution. -/
def executeFrame (w : FrameWorld) : FrameWorld :=
  { w with state := executeSchedule w.cachedSchedule w.state }

/-- Witness scenario: the node producing the shadow map. -/
def nodeShadow : GraphNode := ⟨"Shadow", [], [("shadow_map", 7)]⟩

/-- Witness scenario: a node whose required binding is absent all frame. -/
def nodeBroken : GraphNode := ⟨"Broken", ["missing_tex"], [("broken_out", 1)]⟩

/-- Witness scenario: the main pass consuming the shadow map. -/
def nodeMain : GraphNode := ⟨"MainPass", ["shadow_map"], [("color", 3)]⟩

/-- Witness scenario: a three-node frame with one failing node. -/
def frameEx : FrameWorld := ⟨[nodeShadow, nodeBroken, nodeMain], ⟨[], [], []⟩⟩

/-! ## Plugin resource initialisation (lib.rs lines 157-174) -/

/-- The multisampling configuration resource. -/
structure Msaa where
  samples : Nat
deriving DecidableEq

/-- Modelled from the spec: `Msaa::default()` (outside the excerpt; the
value is irrelevant to the claims). -/
def msaaDefault : Msaa := ⟨1⟩

/-- `BaseRenderGraphConfig`: the two camera flags consulted by
`RenderPlugin::build` (lib.rs lines 167-173). -/
structure BaseRenderGraphConfig where
  add_2d_camera : Bool
  add_3d_camera : Bool
deriving DecidableEq

/-- Modelled from the spec: the 3D camera slot name `base::camera::CAMERA3D`. -/
def CAMERA3D : String := "camera_3d"

/-- Modelled from the spec: the 2D camera slot name `base::camera::CAMERA2D`. -/
def CAMERA2D : String := "camera_2d"

/-- The app resources touched by the tail of `RenderPlugin::build`: the Msaa
resource, the active-camera slots, and whether the base graph was added. -/
structure BuildResources where
  msaa : Option Msaa
  activeCameras : List String
  baseGraphAdded : Bool
deriving DecidableEq

/-- Lines 157-174 of `RenderPlugin::build`: insert a default `Msaa` only
when none exists; then, when a base-graph config is present, add the base
render graph and exactly the camera slots whose flags are set. -/
def buildResources (config : Option BaseRenderGraphConfig)
    (res : BuildResources) : BuildResources :=
  let res1 :=
    if res.msaa.isNone then { res with msaa := some msaaDefault } else res
  match config with
  | none => res1
  | some c =>
    let res2 := { res1 with baseGraphAdded := true }
    let res3 :=
      if c.add_3d_camera then
        { res2 with activeCameras := res2.activeCameras ++ [CAMERA3D] }
      else res2
    if c.add_2d_camera then
      { res3 with activeCameras := res3.activeCameras ++ [CAMERA2D] }
    else res3

end BevyRender

namespace BevyRender

/-! ## Lemmas about the pipeline compiler cache -/

theorem get_or_compile_hit {c : PipelineCompiler} {k : PipelineKey} {h : Nat}
    (hl : cacheLookup c.cache k = some h) :
    get_or_compile c k = (h, c, false) := by
  unfold get_or_compile
  rw [hl]

theorem cacheLookup_after_call (c : PipelineCompiler) (k : PipelineKey) :
    cacheLookup (get_or_compile c k).2.1.cache k =
      some (get_or_compile c k).1 := by
  unfold get_or_compile
  cases hl : cacheLookup c.cache k with
  | some v => simpa using hl
  | none => simp [cacheLookup]

theorem cacheLookup_preserved {c : PipelineCompiler} {k : PipelineKey} {h : Nat}
    (k' : PipelineKey) (hl : cacheLookup c.cache k = some h) :
    cacheLookup (get_or_compile c k').2.1.cache k = some h := by
  unfold get_or_compile
  cases hk' : cacheLookup c.cache k' with
  | some v => simpa using hl
  | none =>
    have hne : k' ≠ k := by
      intro he
      rw [he, hl] at hk'
      cases hk'
    simp [cacheLookup, hne, hl]

theorem run_after_hit (k : PipelineKey) (h : Nat) :
    ∀ (ks : List PipelineKey) (c : PipelineCompiler),
      cacheLookup c.cache k = some h →
      ∀ e ∈ (runCompiler c ks).2, e.1 = k → e.2.1 = h ∧ e.2.2 = false := by
  intro ks
  induction ks with
  | nil =>
    intro c _ e he
    simp [runCompiler] at he
  | cons k' ks ih =>
    intro c hc e he hek
    rw [runCompiler] at he
    rcases List.mem_cons.mp he with he | he
    · subst he
      simp only at hek
      subst hek
      rw [get_or_compile_hit hc]
      exact ⟨rfl, rfl⟩
    · exact ih (get_or_compile c k').2.1 (cacheLookup_preserved k' hc) e he hek

theorem keyCalls_cons_ne {log : List (PipelineKey × Nat × Bool)}
    {k k' : PipelineKey} {v : Nat × Bool} (hne : k' ≠ k) :
    keyCalls ((k', v) :: log) k = keyCalls log k := by
  simp [keyCalls, List.filter, hne]

theorem keyCalls_cons_eq {log : List (PipelineKey × Nat × Bool)}
    {k : PipelineKey} {v : Nat × Bool} :
    keyCalls ((k, v) :: log) k = v :: keyCalls log k := by
  simp [keyCalls, List.filter]

theorem run_key_calls (k : PipelineKey) :
    ∀ (ks : List PipelineKey) (c : PipelineCompiler),
      cacheLookup c.cache k = none →
      keyCalls (runCompiler c ks).2 k = [] ∨
      ∃ h rest, keyCalls (runCompiler c ks).2 k = (h, true) :: rest ∧
        ∀ e ∈ rest, e = (h, false) := by
  intro ks
  induction ks with
  | nil =>
    intro c _
    left
    simp [runCompiler, keyCalls]
  | cons k' ks ih =>
    intro c hc
    by_cases hk : k' = k
    · subst hk
      right
      have hmiss : get_or_compile c k' =
          (c.nextHandle, ⟨(k', c.nextHandle) :: c.cache, c.nextHandle + 1⟩, true) := by
        unfold get_or_compile
        rw [hc]
      refine ⟨c.nextHandle,
        keyCalls (runCompiler (get_or_compile c k').2.1 ks).2 k', ?_, ?_⟩
      · rw [runCompiler]
        rw [keyCalls_cons_eq]
        rw [hmiss]
      · intro e he
        rcases List.mem_map.mp he with ⟨x, hx, hxe⟩
        rcases List.mem_filter.mp hx with ⟨hxmem, hxk⟩
        have hxk' : x.1 = k' := of_decide_eq_true hxk
        have hlook : cacheLookup (get_or_compile c k').2.1.cache k' =
            some (get_or_compile c k').1 := cacheLookup_after_call c k'
        have hres := run_after_hit k' (get_or_compile c k').1 ks
          (get_or_compile c k').2.1 hlook x hxmem hxk'
        rw [← hxe]
        have hval : (get_or_compile c k').1 = c.nextHandle := by
          rw [hmiss]
        rcases hres with ⟨h1, h2⟩
        rw [hval] at h1
        cases hx2 : x.2 with
        | mk a b =>
          rw [hx2] at h1 h2
          simp only at h1 h2
          rw [h1, h2]
    · have hc' : cacheLookup (get_or_compile c k').2.1.cache k = none := by
        unfold get_or_compile
        cases hl : cacheLookup c.cache k' with
        | some v => simpa using hc
        | none => simp [cacheLookup, hk, hc]
      have hrec := ih (get_or_compile c k').2.1 hc'
      rw [runCompiler]
      rw [keyCalls_cons_ne hk]
      exact hrec

theorem cacheLookup_mem :
    ∀ {l : List (PipelineKey × Nat)} {k : PipelineKey} {h : Nat},
      cacheLookup l k = some h → (k, h) ∈ l := by
  intro l
  induction l with
  | nil => intro k h hl; cases hl
  | cons e rest ih =>
    intro k h hl
    rcases e with ⟨k', h'⟩
    rw [cacheLookup] at hl
    by_cases hk : k' = k
    · subst hk
      simp at hl
      subst hl
      exact List.mem_cons_self _ _
    · simp [hk] at hl
      exact List.mem_cons_of_mem _ (ih hl)

theorem cacheWF_empty : CacheWF emptyCompiler := by
  constructor
  · intro e he
    cases he
  · exact List.Pairwise.nil

theorem cacheWF_get_or_compile (c : PipelineCompiler) (k : PipelineKey)
    (hwf : CacheWF c) : CacheWF (get_or_compile c k).2.1 := by
  unfold get_or_compile
  cases hl : cacheLookup c.cache k with
  | some v => exact hwf
  | none =>
    constructor
    · intro e he
      rcases List.mem_cons.mp he with he | he
      · subst he
        exact Nat.lt_succ_self _
      · exact Nat.lt_trans (hwf.1 e he) (Nat.lt_succ_self _)
    · refine List.Pairwise.cons ?_ hwf.2
      intro e he
      exact fun heq => Nat.lt_irrefl _ (heq ▸ hwf.1 e he)

theorem cacheWF_run :
    ∀ (ks : List PipelineKey) (c : PipelineCompiler),
      CacheWF c → CacheWF (runCompiler c ks).1 := by
  intro ks
  induction ks with
  | nil => intro c hwf; exact hwf
  | cons k ks ih =>
    intro c hwf
    rw [runCompiler]
    exact ih _ (cacheWF_get_or_compile c k hwf)

theorem cacheLookup_inj {c : PipelineCompiler} (hwf : CacheWF c)
    {k1 k2 : PipelineKey} {h1 h2 : Nat} (hne : k1 ≠ k2)
    (hl1 : cacheLookup c.cache k1 = some h1)
    (hl2 : cacheLookup c.cache k2 = some h2) : h1 ≠ h2 := by
  have m1 := cacheLookup_mem hl1
  have m2 := cacheLookup_mem hl2
  have hsym : Symmetric (fun a b : PipelineKey × Nat => a.2 ≠ b.2) :=
    fun a b hab => hab.symm
  have hentry : (k1, h1) ≠ (k2, h2) := by
    intro he
    exact hne (congrArg Prod.fst he)
  exact List.Pairwise.forall hsym hwf.2 m1 m2 hentry

/-! ## The canonicalising string order -/

theorem charsLe_total : ∀ x y : List Char, charsLe x y = true ∨ charsLe y x = true := by
  intro x
  induction x with
  | nil => intro y; left; rfl
  | cons a as ih =>
    intro y
    cases y with
    | nil => right; rfl
    | cons b bs =>
      by_cases hab : a.toNat < b.toNat
      · left
        simp [charsLe, hab]
      · by_cases hba : b.toNat < a.toNat
        · right
          simp [charsLe, hba]
        · rcases ih bs with h | h
          · left
            simp [charsLe, hab, hba, h]
          · right
            simp [charsLe, hab, hba, h]

theorem charsLe_trans :
    ∀ x y z : List Char, charsLe x y = true → charsLe y z = true →
      charsLe x z = true := by
  intro x
  induction x with
  | nil => intro y z _ _; rfl
  | cons a as ih =>
    intro y z hxy hyz
    cases y with
    | nil => simp [charsLe] at hxy
    | cons b bs =>
      cases z with
      | nil => simp [charsLe] at hyz
      | cons c cs =>
        rw [charsLe] at hxy hyz ⊢
        by_cases hab : a.toNat < b.toNat
        · by_cases hbc : b.toNat < c.toNat
          · simp [show a.toNat < c.toNat by omega]
          · by_cases hcb : c.toNat < b.toNat
            · simp [hbc, hcb] at hyz
            · simp [show a.toNat < c.toNat by omega]
        · by_cases hba : b.toNat < a.toNat
          · simp [hab, hba] at hxy
          · by_cases hbc : b.toNat < c.toNat
            · simp [show a.toNat < c.toNat by omega]
            · by_cases hcb : c.toNat < b.toNat
              · simp [hbc, hcb] at hyz
              · simp [hab, hba] at hxy
                simp [hbc, hcb] at hyz
                simp [show ¬ a.toNat < c.toNat by omega,
                      show ¬ c.toNat < a.toNat by omega]
                exact ih bs cs hxy hyz

theorem charsLe_antisymm :
    ∀ x y : List Char, charsLe x y = true → charsLe y x = true → x = y := by
  intro x
  induction x with
  | nil =>
    intro y _ hyx
    cases y with
    | nil => rfl
    | cons b bs => simp [charsLe] at hyx
  | cons a as ih =>
    intro y hxy hyx
    cases y with
    | nil => simp [charsLe] at hxy
    | cons b bs =>
      rw [charsLe] at hxy hyx
      by_cases hab : a.toNat < b.toNat
      · simp [hab, show ¬ b.toNat < a.toNat by omega] at hyx
      · by_cases hba : b.toNat < a.toNat
        · simp [hab, hba] at hxy
        · simp [hab, hba] at hxy
          simp [hab, hba] at hyx
          have hn : a.toNat = b.toNat := by omega
          have hchar : a = b := Char.eq_of_val_eq (UInt32.toNat.inj hn)
          rw [hchar, ih bs hxy hyx]

theorem strLe_total : ∀ a b : String, strLe a b = true ∨ strLe b a = true :=
  fun a b => charsLe_total a.data b.data

theorem strLe_trans :
    ∀ a b c : String, strLe a b = true → strLe b c = true → strLe a c = true :=
  fun a b c => charsLe_trans a.data b.data c.data

theorem strLe_antisymm :
    ∀ a b : String, strLe a b = true → strLe b a = true → a = b := by
  intro a b hab hba
  cases a with
  | mk da =>
    cases b with
    | mk db =>
      have : da = db := charsLe_antisymm da db hab hba
      rw [this]

theorem canonSet_sorted (l : List String) :
    List.Sorted (fun a b => strLe a b = true) (canonSet l) :=
  @List.sorted_insertionSort String (fun a b => strLe a b = true) _
    ⟨strLe_total⟩ ⟨strLe_trans⟩ l.dedup

theorem canonSet_eq_of_perm {l1 l2 : List String} (h : l1.Perm l2) :
    canonSet l1 = canonSet l2 := by
  have hp : (canonSet l1).Perm (canonSet l2) :=
    ((List.perm_insertionSort _ _).trans h.dedup).trans
      (List.perm_insertionSort _ _).symm
  exact @List.eq_of_perm_of_sorted String (fun a b => strLe a b = true)
    ⟨strLe_antisymm⟩ _ _ hp (canonSet_sorted l1) (canonSet_sorted l2)

/-! ## Claim C2: at-most-once compilation per (descriptor, specialization) -/

/-- C2: for any fixed (descriptor, specialization) key, every
`get_or_compile` call in an arbitrary call sequence against the cache
returns the identical compiled-pipeline handle, and the backend compile
routine is invoked at most once over the lifetime of the cache. -/
theorem getOrCompile_at_most_once (ks : List PipelineKey) (k : PipelineKey) :
    (∀ x ∈ keyCalls (runCompiler emptyCompiler ks).2 k,
       ∀ y ∈ keyCalls (runCompiler emptyCompiler ks).2 k, x.1 = y.1) ∧
    ((keyCalls (runCompiler emptyCompiler ks).2 k).filter
        (fun e => e.2)).length ≤ 1 := by
  have h0 : cacheLookup emptyCompiler.cache k = none := rfl
  rcases run_key_calls k ks emptyCompiler h0 with h | ⟨h, rest, heq, hrest⟩
  · rw [h]
    refine ⟨fun x hx => absurd hx (List.not_mem_nil x), by simp⟩
  · rw [heq]
    constructor
    · intro x hx y hy
      have hx' : x.1 = h := by
        rcases List.mem_cons.mp hx with hx | hx
        · rw [hx]
        · rw [hrest x hx]
      have hy' : y.1 = h := by
        rcases List.mem_cons.mp hy with hy | hy
        · rw [hy]
        · rw [hrest y hy]
      rw [hx', hy']
    · have hfil : rest.filter (fun e => e.2) = [] := by
        refine List.filter_eq_nil_iff.mpr ?_
        intro e he
        rw [hrest e he]
        simp
      rw [List.filter_cons]
      simp [hfil]

/-- Witness for C2: the spec's end-to-end scenario — requesting the
{USE_FOG, triangle-list} specialization twice yields one backend compile in
total and identical returned handles. -/
theorem getOrCompile_at_most_once_witness :
    keyCalls (runCompiler emptyCompiler [keyFog, keyFog]).2 keyFog =
      [(0, true), (0, false)] ∧
    (∀ x ∈ keyCalls (runCompiler emptyCompiler [keyFog, keyFog]).2 keyFog,
       ∀ y ∈ keyCalls (runCompiler emptyCompiler [keyFog, keyFog]).2 keyFog,
         x.1 = y.1) ∧
    ((keyCalls (runCompiler emptyCompiler [keyFog, keyFog]).2 keyFog).filter
        (fun e => e.2)).length ≤ 1 :=
  ⟨by decide, (getOrCompile_at_most_once [keyFog, keyFog] keyFog).1,
    (getOrCompile_at_most_once [keyFog, keyFog] keyFog).2⟩

/-! ## Claim C5: structural cache identity of specializations -/

/-- C5: pipeline-cache identity is structural equality over all
specialization fields: define/dynamic-binding collections given in any order
build the same specialization (hence hit the same cache entry), while any two
distinct (descriptor, specialization) keys cached during a run hold distinct
compiled-pipeline handles. -/
theorem specialization_cache_identity :
    (∀ (defs1 defs2 dyn1 dyn2 : List String) (topo : Nat)
       (layout : List (String × Nat)) (samples : Nat),
       defs1.Perm defs2 → dyn1.Perm dyn2 →
       mkPipelineSpecialization defs1 dyn1 topo layout samples =
         mkPipelineSpecialization defs2 dyn2 topo layout samples) ∧
    (∀ (ks : List PipelineKey) (k1 k2 : PipelineKey) (h1 h2 : Nat),
       k1 ≠ k2 →
       cacheLookup (runCompiler emptyCompiler ks).1.cache k1 = some h1 →
       cacheLookup (runCompiler emptyCompiler ks).1.cache k2 = some h2 →
       h1 ≠ h2) := by
  constructor
  · intro defs1 defs2 dyn1 dyn2 topo layout samples hdefs hdyn
    unfold mkPipelineSpecialization
    rw [canonSet_eq_of_perm hdefs, canonSet_eq_of_perm hdyn]
  · intro ks k1 k2 h1 h2 hne hl1 hl2
    exact cacheLookup_inj (cacheWF_run ks emptyCompiler cacheWF_empty)
      hne hl1 hl2

/-- Witness for C5: swapping the define order yields the same
specialization; a specialization with one extra define ({USE_FOG} vs {})
occupies a distinct cache entry with a distinct compiled pipeline. -/
theorem specialization_cache_identity_witness :
    mkPipelineSpecialization ["A", "B"] [] 3 [] 1 =
      mkPipelineSpecialization ["B", "A"] [] 3 [] 1 ∧
    keyPlain ≠ keyFog ∧
    cacheLookup (runCompiler emptyCompiler [keyPlain, keyFog]).1.cache
        keyPlain = some 0 ∧
    cacheLookup (runCompiler emptyCompiler [keyPlain, keyFog]).1.cache
        keyFog = some 1 ∧
    (0 : Nat) ≠ 1 :=
  ⟨specialization_cache_identity.1 ["A", "B"] ["B", "A"] [] [] 3 [] 1
      (List.Perm.swap "B" "A" []) (List.Perm.refl []),
    by decide, by decide, by decide,
    specialization_cache_identity.2 [keyPlain, keyFog] keyPlain keyFog 0 1
      (by decide) (by decide) (by decide)⟩

/-! ## Walks and bounded reachability -/

theorem walkPath_append {edges : List (String × String)} :
    ∀ {l1 : List String} {a b : String} (l2 : List String) (c : String),
      walkPath edges a l1 b → walkPath edges b l2 c →
      walkPath edges a (l1 ++ l2) c := by
  intro l1
  induction l1 with
  | nil =>
    intro a b l2 c h1 h2
    rw [walkPath] at h1
    rw [List.nil_append, h1]
    exact h2
  | cons d t ih =>
    intro a b l2 c h1 h2
    rw [walkPath] at h1
    exact ⟨h1.1, ih l2 c h1.2 h2⟩

theorem transGen_to_walk {g : RenderGraph} {a b : String}
    (h : Relation.TransGen (EdgeStep g) a b) :
    ∃ l, walkPath g.edges a l b ∧ l ≠ [] := by
  induction h with
  | single hr => exact ⟨[_], ⟨hr, rfl⟩, by simp⟩
  | tail _ hr ih =>
    rcases ih with ⟨l, hw, _⟩
    exact ⟨l ++ [_], walkPath_append [_] _ hw ⟨hr, rfl⟩, by simp⟩

theorem walk_to_reachable {edges : List (String × String)} :
    ∀ (l : List String) (a b : String),
      walkPath edges a l b → reachableWithin edges l.length a b = true := by
  intro l
  induction l with
  | nil =>
    intro a b h
    rw [walkPath] at h
    simp [reachableWithin, h]
  | cons c t ih =>
    intro a b h
    rw [walkPath] at h
    rw [List.length_cons, reachableWithin]
    refine Bool.or_eq_true_iff.mpr ?_
    right
    refine List.any_eq_true.mpr ⟨c, ?_, ih c b h.2⟩
    refine List.mem_map.mpr ⟨(a, c), List.mem_filter.mpr ⟨h.1, by simp⟩, rfl⟩

theorem reachable_mono {edges : List (String × String)} :
    ∀ (f1 f2 : Nat) (a b : String), f1 ≤ f2 →
      reachableWithin edges f1 a b = true →
      reachableWithin edges f2 a b = true := by
  intro f1
  induction f1 with
  | zero =>
    intro f2 a b _ h
    rw [reachableWithin] at h
    cases f2 with
    | zero => exact h
    | succ f =>
      rw [reachableWithin, h]
      rfl
  | succ f ih =>
    intro f2 a b hle h
    cases f2 with
    | zero => omega
    | succ f2' =>
      rw [reachableWithin] at h
      rw [reachableWithin]
      rcases Bool.or_eq_true_iff.mp h with h | h
      · rw [h]
        rfl
      · rcases List.any_eq_true.mp h with ⟨c, hc, hr⟩
        refine Bool.or_eq_true_iff.mpr (Or.inr ?_)
        exact List.any_eq_true.mpr ⟨c, hc, ih f2' c b (by omega) hr⟩

theorem exists_dup_split {l : List String} (h : ¬ l.Nodup) :
    ∃ x l1 l2 l3, l = l1 ++ x :: (l2 ++ x :: l3) := by
  induction l with
  | nil => exact absurd List.nodup_nil h
  | cons a t ih =>
    by_cases hat : a ∈ t
    · rcases List.append_of_mem hat with ⟨s, u, hsu⟩
      exact ⟨a, [], s, u, by rw [hsu]; rfl⟩
    · have hnt : ¬ t.Nodup := by
        intro hn
        exact h (List.nodup_cons.mpr ⟨hat, hn⟩)
      rcases ih hnt with ⟨x, l1, l2, l3, hsplit⟩
      exact ⟨x, a :: l1, l2, l3, by rw [hsplit]; rfl⟩

theorem walkPath_decompose {edges : List (String × String)} :
    ∀ (l1 : List String) {a b : String} (x : String) (l2 : List String),
      walkPath edges a (l1 ++ x :: l2) b →
      walkPath edges a (l1 ++ [x]) x ∧ walkPath edges x l2 b := by
  intro l1
  induction l1 with
  | nil =>
    intro a b x l2 h
    rw [List.nil_append, walkPath] at h
    exact ⟨⟨h.1, rfl⟩, h.2⟩
  | cons c t ih =>
    intro a b x l2 h
    rw [List.cons_append, walkPath] at h
    rcases ih x l2 h.2 with ⟨h1, h2⟩
    exact ⟨⟨h.1, h1⟩, h2⟩

theorem walk_shorten {edges : List (String × String)} :
    ∀ (n : Nat) (l : List String) (a b : String), l.length ≤ n →
      walkPath edges a l b →
      ∃ l', walkPath edges a l' b ∧ l'.Nodup ∧ l'.length ≤ l.length := by
  intro n
  induction n with
  | zero =>
    intro l a b hlen hw
    have : l = [] := List.length_eq_zero.mp (Nat.le_zero.mp hlen)
    subst this
    exact ⟨[], hw, List.nodup_nil, Nat.le_refl 0⟩
  | succ m ih =>
    intro l a b hlen hw
    by_cases hnd : l.Nodup
    · exact ⟨l, hw, hnd, Nat.le_refl _⟩
    · rcases exists_dup_split hnd with ⟨x, l1, l2, l3, hsplit⟩
      subst hsplit
      rcases walkPath_decompose l1 x (l2 ++ x :: l3) hw with ⟨h1, h2⟩
      rcases walkPath_decompose l2 x l3 h2 with ⟨_, h3⟩
      have hw' : walkPath edges a ((l1 ++ [x]) ++ l3) b :=
        walkPath_append l3 b h1 h3
      have hlen' : ((l1 ++ [x]) ++ l3).length ≤ m := by
        simp only [List.length_append, List.length_cons, List.length_nil] at hlen ⊢
        omega
      rcases ih _ a b hlen' hw' with ⟨l', hw'', hnd', hlen''⟩
      refine ⟨l', hw'', hnd', ?_⟩
      simp only [List.length_append, List.length_cons, List.length_nil] at hlen'' ⊢
      omega

theorem walk_targets {edges : List (String × String)} :
    ∀ (l : List String) (a b : String), walkPath edges a l b →
      ∀ x ∈ l, x ∈ edges.map Prod.snd := by
  intro l
  induction l with
  | nil => intro a b _ x hx; cases hx
  | cons c t ih =>
    intro a b hw x hx
    rw [walkPath] at hw
    rcases List.mem_cons.mp hx with hx | hx
    · subst hx
      exact List.mem_map.mpr ⟨(a, x), hw.1, rfl⟩
    · exact ih c b hw.2 x hx

theorem walk_nodup_bound {edges : List (String × String)}
    {l : List String} {a b : String} (hw : walkPath edges a l b)
    (hnd : l.Nodup) : l.length ≤ edges.length := by
  have hsub : l ⊆ edges.map Prod.snd := fun x hx => walk_targets l a b hw x hx
  have := (hnd.subperm hsub).length_le
  simpa using this

theorem reachable_self (edges : List (String × String)) :
    ∀ (fuel : Nat) (a : String), reachableWithin edges fuel a a = true := by
  intro fuel a
  cases fuel with
  | zero => simp [reachableWithin]
  | succ f => simp [reachableWithin]

theorem reach_of_rtg {g : RenderGraph} {a b : String}
    (h : Relation.ReflTransGen (EdgeStep g) a b) :
    reachableWithin g.edges g.edges.length a b = true := by
  rcases (Relation.reflTransGen_iff_eq_or_transGen.mp h) with heq | htg
  · subst heq
    exact reachable_self g.edges g.edges.length _
  · rcases transGen_to_walk htg with ⟨l, hw, _⟩
    rcases walk_shorten l.length l a b (Nat.le_refl _) hw with
      ⟨l', hw', hnd', _⟩
    exact reachable_mono l'.length g.edges.length a b
      (walk_nodup_bound hw' hnd') (walk_to_reachable l' a b hw')

/-! ## Cycle creation and edge insertion (claim C4) -/

theorem transGen_addEdge {g : RenderGraph} {a b x y : String}
    (h : Relation.TransGen (EdgeStep (addEdgeRaw g a b)) x y) :
    Relation.TransGen (EdgeStep g) x y ∨
      (Relation.ReflTransGen (EdgeStep g) x a ∧
        Relation.ReflTransGen (EdgeStep g) b y) := by
  induction h with
  | single hr =>
    rcases List.mem_cons.mp hr with hr | hr
    · have hxa : x = a := congrArg Prod.fst hr
      have hyb : _ = b := congrArg Prod.snd hr
      right
      exact ⟨hxa ▸ Relation.ReflTransGen.refl, hyb ▸ Relation.ReflTransGen.refl⟩
    · exact Or.inl (Relation.TransGen.single hr)
  | tail _ hr ih =>
    rcases List.mem_cons.mp hr with hr | hr
    · have hma : _ = a := congrArg Prod.fst hr
      have hyb : _ = b := congrArg Prod.snd hr
      rcases ih with ih | ih
      · exact Or.inr ⟨hma ▸ ih.to_reflTransGen, hyb ▸ Relation.ReflTransGen.refl⟩
      · exact Or.inr ⟨ih.1, hyb ▸ Relation.ReflTransGen.refl⟩
    · rcases ih with ih | ih
      · exact Or.inl (ih.tail hr)
      · exact Or.inr ⟨ih.1, ih.2.tail hr⟩

/-- C4: on a valid acyclic graph, an edge whose insertion would create a
cycle is rejected by `add_node_edge` with a construction error, and the
graph (its node set and edge set) is returned exactly as it was. -/
theorem add_node_edge_rejects_cycle {g : RenderGraph} {a b : String}
    (hdag : IsDAG g) (ha : a ∈ g.nodes) (hb : b ∈ g.nodes)
    (hcyc : ¬ IsDAG (addEdgeRaw g a b)) :
    (∃ msg, (add_node_edge g a b).1 = Except.error msg) ∧
      (add_node_edge g a b).2 = g := by
  have hrtg : Relation.ReflTransGen (EdgeStep g) b a := by
    rcases not_forall.mp hcyc with ⟨n, hn⟩
    have htg : Relation.TransGen (EdgeStep (addEdgeRaw g a b)) n n :=
      not_not.mp hn
    rcases transGen_addEdge htg with h | ⟨h1, h2⟩
    · exact absurd h (hdag n)
    · exact h2.trans h1
  have hwc : wouldCycle g a b = true := reach_of_rtg hrtg
  rw [add_node_edge, if_pos ⟨ha, hb⟩, if_pos hwc]
  exact ⟨⟨"would create a cycle", rfl⟩, rfl⟩

/-- The example graph is acyclic: its only edge goes Shadow → MainPass. -/
theorem gShadow_isDAG : IsDAG gShadow := by
  have hstep : ∀ x y : String, EdgeStep gShadow x y →
      x = "Shadow" ∧ y = "MainPass" := by
    intro x y h
    rcases List.mem_cons.mp h with h | h
    · exact ⟨congrArg Prod.fst h, congrArg Prod.snd h⟩
    · cases h
  have htg : ∀ x y : String, Relation.TransGen (EdgeStep gShadow) x y →
      x = "Shadow" ∧ y = "MainPass" := by
    intro x y h
    induction h with
    | single hr => exact hstep _ _ hr
    | tail _ hr ih =>
      have h1 := hstep _ _ hr
      rw [ih.2] at h1
      exact absurd h1.1 (by decide)
  intro n hn
  have h := htg n n hn
  rw [h.1] at h
  exact absurd h.2 (by decide)

/-- Cyclically closing the example graph is indeed cycle-creating. -/
theorem gShadow_back_edge_cycles :
    ¬ IsDAG (addEdgeRaw gShadow "MainPass" "Shadow") := by
  intro hdag
  refine hdag "Shadow" ?_
  have h1 : EdgeStep (addEdgeRaw gShadow "MainPass" "Shadow")
      "Shadow" "MainPass" := by decide
  have h2 : EdgeStep (addEdgeRaw gShadow "MainPass" "Shadow")
      "MainPass" "Shadow" := by decide
  exact Relation.TransGen.head h1 (Relation.TransGen.single h2)

/-- Witness for C4: closing the Shadow → MainPass example into a cycle is
rejected and leaves the graph untouched. -/
theorem add_node_edge_rejects_cycle_witness :
    (∃ msg,
        (add_node_edge gShadow "MainPass" "Shadow").1 = Except.error msg) ∧
      (add_node_edge gShadow "MainPass" "Shadow").2 = gShadow :=
  add_node_edge_rejects_cycle gShadow_isDAG (by decide) (by decide)
    gShadow_back_edge_cycles

/-! ## Schedule derivation (claim C3) -/

theorem cycle_of_all_have_pred {g : RenderGraph} (S : List String)
    (hne : S ≠ [])
    (hpred : ∀ n ∈ S, ∃ p, p ∈ S ∧ EdgeStep g p n) :
    ∃ m, Relation.TransGen (EdgeStep g) m m := by
  classical
  obtain ⟨n0, hn0⟩ : ∃ n, n ∈ S := by
    cases S with
    | nil => exact absurd rfl hne
    | cons a t => exact ⟨a, List.mem_cons_self a t⟩
  let f : {x // x ∈ S} → {x // x ∈ S} := fun x =>
    ⟨(hpred x.1 x.2).choose, (hpred x.1 x.2).choose_spec.1⟩
  have hf : ∀ x : {x // x ∈ S}, EdgeStep g (f x).1 x.1 :=
    fun x => (hpred x.1 x.2).choose_spec.2
  let seq : Nat → {x // x ∈ S} := fun k => f^[k] ⟨n0, hn0⟩
  have hseq : ∀ k, seq (k + 1) = f (seq k) := fun k =>
    Function.iterate_succ_apply' f k ⟨n0, hn0⟩
  have hchain : ∀ (d k : Nat),
      Relation.TransGen (EdgeStep g) (seq (k + d + 1)).1 (seq k).1 := by
    intro d
    induction d with
    | zero =>
      intro k
      rw [hseq k]
      exact Relation.TransGen.single (hf (seq k))
    | succ d ih =>
      intro k
      have hstep : EdgeStep g (seq (k + d + 2)).1 (seq (k + d + 1)).1 := by
        rw [hseq (k + d + 1)]
        exact hf _
      exact Relation.TransGen.head hstep (ih k)
  let F : Fin (S.length + 1) → Fin S.length := fun i =>
    ⟨S.indexOf (seq i.1).1, List.indexOf_lt_length.mpr (seq i.1).2⟩
  obtain ⟨i, j, hij, hFij⟩ :=
    Fintype.exists_ne_map_eq_of_card_lt F (by simp)
  have heq : (seq i.1).1 = (seq j.1).1 := by
    have h1 : S.indexOf (seq i.1).1 = S.indexOf (seq j.1).1 :=
      congrArg Fin.val hFij
    exact (List.indexOf_inj (seq i.1).2 (seq j.1).2).mp h1
  rcases Nat.lt_or_ge i.1 j.1 with hlt | hge
  · have hd : i.1 + (j.1 - i.1 - 1) + 1 = j.1 := by omega
    have hc := hchain (j.1 - i.1 - 1) i.1
    rw [hd, ← heq] at hc
    exact ⟨(seq i.1).1, hc⟩
  · have hlt2 : j.1 < i.1 := by
      rcases Nat.lt_or_ge j.1 i.1 with h | h
      · exact h
      · exact absurd (Fin.ext (Nat.le_antisymm h hge)) hij
    have hd : j.1 + (i.1 - j.1 - 1) + 1 = i.1 := by omega
    have hc := hchain (i.1 - j.1 - 1) j.1
    rw [hd, heq] at hc
    exact ⟨(seq j.1).1, hc⟩

theorem scheduleGo_total {g : RenderGraph} (hval : ValidGraph g)
    (hdag : IsDAG g) :
    ∀ (fuel : Nat) (rem acc : List String),
      rem.length ≤ fuel →
      (∀ x, x ∈ g.nodes ↔ x ∈ rem ∨ x ∈ acc) →
      (rem ++ acc).Nodup →
      StackOrdered g.edges acc →
      ∃ accF, scheduleGo g fuel rem acc = some accF ∧
        accF.Perm (rem ++ acc) ∧ StackOrdered g.edges accF := by
  intro fuel
  induction fuel with
  | zero =>
    intro rem acc hlen _ _ hord
    have hrem : rem = [] := List.length_eq_zero.mp (Nat.le_zero.mp hlen)
    subst hrem
    exact ⟨acc, by simp [scheduleGo], List.Perm.refl _, hord⟩
  | succ m ih =>
    intro rem acc hlen hmem hnd hord
    cases rem with
    | nil =>
      exact ⟨acc, by simp [scheduleGo], List.Perm.refl _, hord⟩
    | cons r0 rs =>
      cases hfind : (r0 :: rs).find? (ready g.edges acc) with
      | none =>
        exfalso
        have hstuck := List.find?_eq_none.mp hfind
        have hpred : ∀ n ∈ r0 :: rs, ∃ p, p ∈ r0 :: rs ∧ EdgeStep g p n := by
          intro n hn
          have hrn : ¬ (∀ e ∈ g.edges,
              (if e.2 = n then decide (e.1 ∈ acc) else true) = true) := by
            intro hall
            exact hstuck n hn (List.all_eq_true.mpr hall)
          push_neg at hrn
          obtain ⟨e, he, hne⟩ := hrn
          by_cases h2 : e.2 = n
          · rw [if_pos h2] at hne
            have h1 : e.1 ∉ acc := fun hmem1 => hne (decide_eq_true hmem1)
            have h1nodes : e.1 ∈ g.nodes := ((hval.2 e he)).1
            have h1rem : e.1 ∈ r0 :: rs := by
              rcases (hmem e.1).mp h1nodes with h | h
              · exact h
              · exact absurd h h1
            refine ⟨e.1, h1rem, ?_⟩
            show (e.1, n) ∈ g.edges
            rw [← h2]
            exact he
          · rw [if_neg h2] at hne
            exact absurd rfl hne
        obtain ⟨mm, hmm⟩ :=
          cycle_of_all_have_pred (r0 :: rs) (by simp) hpred
        exact hdag mm hmm
      | some n =>
        have hn_mem : n ∈ r0 :: rs := List.mem_of_find?_eq_some hfind
        have hn_ready : ready g.edges acc n = true := List.find?_some hfind
        have hperm_rem : (r0 :: rs).Perm (n :: (r0 :: rs).erase n) :=
          List.perm_cons_erase hn_mem
        have hlen' : ((r0 :: rs).erase n).length ≤ m := by
          rw [List.length_erase_of_mem hn_mem]
          simp only [List.length_cons] at hlen ⊢
          omega
        have hmem' : ∀ x, x ∈ g.nodes ↔
            x ∈ (r0 :: rs).erase n ∨ x ∈ n :: acc := by
          intro x
          rw [hmem x, hperm_rem.mem_iff]
          simp only [List.mem_cons]
          tauto
        have hperm1 : ((r0 :: rs).erase n ++ n :: acc).Perm
            ((r0 :: rs) ++ acc) :=
          List.perm_middle.trans ((hperm_rem.append_right acc).symm)
        have hnd' : ((r0 :: rs).erase n ++ n :: acc).Nodup :=
          hperm1.symm.nodup hnd
        have hord' : StackOrdered g.edges (n :: acc) := by
          intro e he l1 l2 hsplit
          cases l1 with
          | nil =>
            rw [List.nil_append] at hsplit
            injection hsplit with h1 h2
            have hall := List.all_eq_true.mp hn_ready e he
            rw [if_pos h1.symm] at hall
            rw [← h2]
            exact of_decide_eq_true hall
          | cons c t =>
            rw [List.cons_append] at hsplit
            injection hsplit with h1 h2
            exact hord e he t l2 h2
        obtain ⟨accF, hgo, hperm, hordF⟩ :=
          ih ((r0 :: rs).erase n) (n :: acc) hlen' hmem' hnd' hord'
        refine ⟨accF, ?_, hperm.trans hperm1, hordF⟩
        simp only [scheduleGo, hfind]
        exact hgo

/-- C3: for every valid node/edge set forming a DAG, schedule derivation
succeeds, the schedule contains every node exactly once, and for every edge
(from, to) the node `from` appears strictly before the node `to`. -/
theorem schedule_toposort {g : RenderGraph} (hval : ValidGraph g)
    (hdag : IsDAG g) :
    ∃ s, schedule g = some s ∧ s.Perm g.nodes ∧
      (∀ n ∈ g.nodes, s.count n = 1) ∧
      (∀ e ∈ g.edges, ∃ (i j : Nat), i < j ∧
        s[i]? = some e.1 ∧ s[j]? = some e.2) := by
  obtain ⟨accF, hgo, hperm, hord⟩ :=
    scheduleGo_total hval hdag g.nodes.length g.nodes [] (Nat.le_refl _)
      (by simp) (by simpa using hval.1)
      (by
        intro e he l1 l2 h
        exact absurd h.symm (by simp))
  have haccperm : accF.Perm g.nodes := by simpa using hperm
  have hrevperm : accF.reverse.Perm g.nodes :=
    (accF.reverse_perm).trans haccperm
  refine ⟨accF.reverse, ?_, hrevperm, ?_, ?_⟩
  · rw [schedule, hgo]
    rfl
  · intro n hn
    have hnd : accF.reverse.Nodup := hrevperm.symm.nodup hval.1
    exact List.count_eq_one_of_mem hnd (hrevperm.mem_iff.mpr hn)
  · intro e he
    have h2acc : e.2 ∈ accF :=
      haccperm.mem_iff.mpr (hval.2 e he).2
    obtain ⟨l1, l2, hsplit⟩ := List.append_of_mem h2acc
    have h1l2 : e.1 ∈ l2 := hord e he l1 l2 hsplit
    have hs : accF.reverse = l2.reverse ++ e.2 :: l1.reverse := by
      rw [hsplit]
      simp [List.reverse_append]
    obtain ⟨i, hi⟩ := List.mem_iff_getElem?.mp (List.mem_reverse.mpr h1l2)
    have hilt : i < l2.reverse.length := (List.getElem?_eq_some.mp hi).1
    refine ⟨i, l2.reverse.length, hilt, ?_, ?_⟩
    · rw [hs, List.getElem?_append_left hilt]
      exact hi
    · rw [hs, List.getElem?_append_right (Nat.le_refl _)]
      simp

/-- Witness for C3: the spec's Shadow → MainPass example graph schedules to
[Shadow, MainPass] with every node once and the edge respected. -/
theorem schedule_toposort_witness :
    ValidGraph gShadow ∧ IsDAG gShadow ∧
      (∃ s, schedule gShadow = some s ∧ s.Perm gShadow.nodes ∧
        (∀ n ∈ gShadow.nodes, s.count n = 1) ∧
        (∀ e ∈ gShadow.edges, ∃ (i j : Nat), i < j ∧
          s[i]? = some e.1 ∧ s[j]? = some e.2)) :=
  ⟨⟨by decide, by decide⟩, gShadow_isDAG,
    schedule_toposort ⟨by decide, by decide⟩ gShadow_isDAG⟩

/-! ## Executor lemmas (claim C6) -/

theorem addReports_nodup :
    ∀ (ms rep : List String), rep.Nodup → (addReports rep ms).Nodup := by
  intro ms
  induction ms with
  | nil => intro rep h; exact h
  | cons m ms ih =>
    intro rep h
    rw [addReports]
    by_cases hm : m ∈ rep
    · rw [if_pos hm]
      exact ih rep h
    · rw [if_neg hm]
      refine ih _ ?_
      rw [List.nodup_append]
      refine ⟨h, List.nodup_singleton m, ?_⟩
      intro a ha hb
      rw [List.mem_singleton] at hb
      exact hm (hb ▸ ha)

theorem addReports_mem_of_mem_rep :
    ∀ (ms rep : List String) (x : String),
      x ∈ rep → x ∈ addReports rep ms := by
  intro ms
  induction ms with
  | nil => intro rep x h; exact h
  | cons m ms ih =>
    intro rep x h
    rw [addReports]
    by_cases hm : m ∈ rep
    · rw [if_pos hm]
      exact ih rep x h
    · rw [if_neg hm]
      exact ih _ x (List.mem_append_left _ h)

theorem addReports_mem_of_mem_ms :
    ∀ (ms rep : List String) (x : String),
      x ∈ ms → x ∈ addReports rep ms := by
  intro ms
  induction ms with
  | nil => intro rep x h; cases h
  | cons m ms ih =>
    intro rep x h
    rw [addReports]
    rcases List.mem_cons.mp h with h | h
    · subst h
      by_cases hm : x ∈ rep
      · rw [if_pos hm]
        exact addReports_mem_of_mem_rep ms rep x hm
      · rw [if_neg hm]
        exact addReports_mem_of_mem_rep ms _ x
          (List.mem_append_right _ (List.mem_singleton.mpr rfl))
    · by_cases hm : m ∈ rep
      · rw [if_pos hm]
        exact ih rep x h
      · rw [if_neg hm]
        exact ih _ x h

theorem runNode_reported_nodup (st : ExecState) (n : GraphNode)
    (h : st.reported.Nodup) : (runNode st n).reported.Nodup := by
  rw [runNode]
  by_cases hm : missingInputs st n = []
  · rw [if_pos hm]
    exact h
  · rw [if_neg hm]
    exact addReports_nodup _ _ h

theorem runNode_reported_mono (st : ExecState) (n : GraphNode) (x : String)
    (h : x ∈ st.reported) : x ∈ (runNode st n).reported := by
  rw [runNode]
  by_cases hm : missingInputs st n = []
  · rw [if_pos hm]
    exact h
  · rw [if_neg hm]
    exact addReports_mem_of_mem_rep _ _ x h

theorem runNode_executed_mono (st : ExecState) (n : GraphNode) (x : String)
    (h : x ∈ st.executed) : x ∈ (runNode st n).executed := by
  rw [runNode]
  by_cases hm : missingInputs st n = []
  · rw [if_pos hm]
    exact List.mem_append_left _ h
  · rw [if_neg hm]
    exact h

theorem exec_reported_nodup :
    ∀ (sched : List GraphNode) (st : ExecState), st.reported.Nodup →
      (executeSchedule sched st).reported.Nodup := by
  intro sched
  induction sched with
  | nil => intro st h; exact h
  | cons n rest ih =>
    intro st h
    exact ih (runNode st n) (runNode_reported_nodup st n h)

theorem exec_reported_mono :
    ∀ (sched : List GraphNode) (st : ExecState) (x : String),
      x ∈ st.reported → x ∈ (executeSchedule sched st).reported := by
  intro sched
  induction sched with
  | nil => intro st x h; exact h
  | cons n rest ih =>
    intro st x h
    exact ih (runNode st n) x (runNode_reported_mono st n x h)

theorem exec_executed_mono :
    ∀ (sched : List GraphNode) (st : ExecState) (x : String),
      x ∈ st.executed → x ∈ (executeSchedule sched st).executed := by
  intro sched
  induction sched with
  | nil => intro st x h; exact h
  | cons n rest ih =>
    intro st x h
    exact ih (runNode st n) x (runNode_executed_mono st n x h)

theorem executeSchedule_append (pre post : List GraphNode) (st : ExecState) :
    executeSchedule (pre ++ post) st =
      executeSchedule post (executeSchedule pre st) := by
  simp [executeSchedule, List.foldl_append]

theorem executeFrame_split (w : FrameWorld) (pre : List GraphNode)
    (n : GraphNode) (post : List GraphNode)
    (hsplit : w.cachedSchedule = pre ++ n :: post) :
    (executeFrame w).state =
      executeSchedule post (runNode (executeSchedule pre w.state) n) := by
  show executeSchedule w.cachedSchedule w.state = _
  rw [hsplit, show pre ++ n :: post = (pre ++ [n]) ++ post by simp,
    executeSchedule_append, executeSchedule_append]
  rfl

/-- C6: when a node's work hits a missing binding during graph execution,
that node is skipped for the frame (its outputs are not stored and it is not
marked executed), execution continues with the rest of the schedule so the
frame completes and every later ready node still runs, the cached schedule is
left untouched, and each distinct missing-binding name is reported exactly
once (the report list stays duplicate-free and contains every name that was
missing at any node's turn). -/
theorem executor_missing_binding_skip (w : FrameWorld) :
    ((executeFrame w).cachedSchedule = w.cachedSchedule) ∧
    (w.state.reported.Nodup → (executeFrame w).state.reported.Nodup) ∧
    (∀ pre n post, w.cachedSchedule = pre ++ n :: post →
      missingInputs (executeSchedule pre w.state) n ≠ [] →
      (runNode (executeSchedule pre w.state) n).bindings =
          (executeSchedule pre w.state).bindings ∧
        (runNode (executeSchedule pre w.state) n).executed =
          (executeSchedule pre w.state).executed ∧
        (executeFrame w).state =
          executeSchedule post (runNode (executeSchedule pre w.state) n) ∧
        ∀ m ∈ missingInputs (executeSchedule pre w.state) n,
          m ∈ (executeFrame w).state.reported) ∧
    (∀ pre n post, w.cachedSchedule = pre ++ n :: post →
      missingInputs (executeSchedule pre w.state) n = [] →
      n.name ∈ (executeFrame w).state.executed) := by
  refine ⟨rfl, ?_, ?_, ?_⟩
  · intro h
    exact exec_reported_nodup w.cachedSchedule w.state h
  · intro pre n post hsplit hmiss
    have hrun : runNode (executeSchedule pre w.state) n =
        { executeSchedule pre w.state with
            reported := addReports (executeSchedule pre w.state).reported
              (missingInputs (executeSchedule pre w.state) n) } := by
      rw [runNode, if_neg hmiss]
    have hfinal := executeFrame_split w pre n post hsplit
    refine ⟨by rw [hrun], by rw [hrun], hfinal, ?_⟩
    intro m hm
    have h1 : m ∈ (runNode (executeSchedule pre w.state) n).reported := by
      rw [hrun]
      exact addReports_mem_of_mem_ms _ _ m hm
    rw [hfinal]
    exact exec_reported_mono post _ m h1
  · intro pre n post hsplit hok
    have hfinal := executeFrame_split w pre n post hsplit
    rw [hfinal]
    refine exec_executed_mono post _ n.name ?_
    rw [runNode, if_pos hok]
    exact List.mem_append_right _ (List.mem_singleton.mpr rfl)

/-- Witness for C6: in the three-node frame {Shadow, Broken, MainPass} the
Broken node's missing binding skips only that node, Shadow and MainPass both
execute, the frame completes, and "missing_tex" is reported exactly once. -/
theorem executor_missing_binding_skip_witness :
    missingInputs (executeSchedule [nodeShadow] frameEx.state) nodeBroken ≠
        [] ∧
    (executeFrame frameEx).state.reported = ["missing_tex"] ∧
    (executeFrame frameEx).state.executed = ["Shadow", "MainPass"] ∧
    (executeFrame frameEx).state.reported.Nodup ∧
    ((runNode (executeSchedule [nodeShadow] frameEx.state)
          nodeBroken).bindings =
        (executeSchedule [nodeShadow] frameEx.state).bindings ∧
      (runNode (executeSchedule [nodeShadow] frameEx.state)
          nodeBroken).executed =
        (executeSchedule [nodeShadow] frameEx.state).executed ∧
      (executeFrame frameEx).state =
        executeSchedule [nodeMain]
          (runNode (executeSchedule [nodeShadow] frameEx.state) nodeBroken) ∧
      ∀ m ∈ missingInputs (executeSchedule [nodeShadow] frameEx.state)
          nodeBroken,
        m ∈ (executeFrame frameEx).state.reported) ∧
    nodeMain.name ∈ (executeFrame frameEx).state.executed :=
  ⟨by decide, by decide, by decide,
    (executor_missing_binding_skip frameEx).2.1 (by decide),
    (executor_missing_binding_skip frameEx).2.2.1 [nodeShadow] nodeBroken
      [nodeMain] (by decide) (by decide),
    (executor_missing_binding_skip frameEx).2.2.2 [nodeShadow, nodeBroken]
      nodeMain [] (by decide) (by decide)⟩

/-! ## Resource initialisation claims (C9, C10) -/

/-- C9: `RenderPlugin::build` leaves an already-present `Msaa` resource
unchanged; a default `Msaa` is inserted only when none is present. -/
theorem msaa_preserved (config : Option BaseRenderGraphConfig)
    (res : BuildResources) :
    (∀ m, res.msaa = some m → (buildResources config res).msaa = some m) ∧
    (res.msaa = none →
      (buildResources config res).msaa = some msaaDefault) := by
  constructor
  · intro m hm
    cases config with
    | none => simp [buildResources, hm]
    | some c =>
      by_cases h3 : c.add_3d_camera <;> by_cases h2 : c.add_2d_camera <;>
        simp [buildResources, hm, h3, h2]
  · intro hm
    cases config with
    | none => simp [buildResources, hm]
    | some c =>
      by_cases h3 : c.add_3d_camera <;> by_cases h2 : c.add_2d_camera <;>
        simp [buildResources, hm, h3, h2]

/-- Witness for C9: with an `Msaa` of 8 samples already present the plugin
keeps it; with none present it inserts the default. -/
theorem msaa_preserved_witness :
    (buildResources (some ⟨true, true⟩)
        ⟨some ⟨8⟩, [], false⟩).msaa = some ⟨8⟩ ∧
    (buildResources (some ⟨true, true⟩)
        ⟨none, [], false⟩).msaa = some msaaDefault :=
  ⟨(msaa_preserved (some ⟨true, true⟩) ⟨some ⟨8⟩, [], false⟩).1 ⟨8⟩ rfl,
    (msaa_preserved (some ⟨true, true⟩) ⟨none, [], false⟩).2 rfl⟩

/-- C10: starting from freshly-initialised (empty) camera and graph
resources, `RenderPlugin::build` adds the camera_3d slot iff the base-graph
config is present with add_3d_camera set, the camera_2d slot iff it is
present with add_2d_camera set, and adds the base graph iff a config is
present; with no config the camera slots stay empty. -/
theorem base_graph_conditional (config : Option BaseRenderGraphConfig)
    (res : BuildResources) (hcam : res.activeCameras = [])
    (hbg : res.baseGraphAdded = false) :
    (CAMERA3D ∈ (buildResources config res).activeCameras ↔
      ∃ c, config = some c ∧ c.add_3d_camera = true) ∧
    (CAMERA2D ∈ (buildResources config res).activeCameras ↔
      ∃ c, config = some c ∧ c.add_2d_camera = true) ∧
    ((buildResources config res).baseGraphAdded = config.isSome) ∧
    (config = none → (buildResources config res).activeCameras = []) := by
  cases config with
  | none =>
    by_cases hm : res.msaa.isNone <;>
      simp [buildResources, hcam, hbg, hm, CAMERA3D, CAMERA2D]
  | some c =>
    by_cases h3 : c.add_3d_camera <;> by_cases h2 : c.add_2d_camera <;>
      by_cases hm : res.msaa.isNone <;>
      simp [buildResources, hcam, hbg, h3, h2, hm, CAMERA3D, CAMERA2D]

/-- Witness for C10: a config requesting only the 3D camera adds exactly the
camera_3d slot plus the base graph. -/
theorem base_graph_conditional_witness :
    (CAMERA3D ∈ (buildResources (some ⟨false, true⟩)
        ⟨none, [], false⟩).activeCameras ↔
      ∃ c, (some ⟨false, true⟩ : Option BaseRenderGraphConfig) = some c ∧
        c.add_3d_camera = true) ∧
    (CAMERA2D ∈ (buildResources (some ⟨false, true⟩)
        ⟨none, [], false⟩).activeCameras ↔
      ∃ c, (some ⟨false, true⟩ : Option BaseRenderGraphConfig) = some c ∧
        c.add_2d_camera = true) ∧
    ((buildResources (some ⟨false, true⟩)
        ⟨none, [], false⟩).baseGraphAdded =
      (some ⟨false, true⟩ : Option BaseRenderGraphConfig).isSome) ∧
    ((some ⟨false, true⟩ : Option BaseRenderGraphConfig) = none →
      (buildResources (some ⟨false, true⟩)
        ⟨none, [], false⟩).activeCameras = []) :=
  base_graph_conditional (some ⟨false, true⟩) ⟨none, [], false⟩ rfl rfl

/-! ## Stage wiring claims (C1, C7, C8) -/

/-- C1 evaluation at the code's own stage insertions: `RenderPlugin::build`
does register systems at exactly the five render stage points (the RENDER
stage receives none in this crate), but the stage order produced by its six
`add_stage_after` calls places DRAW — and even RENDER and POST_RENDER —
before COMPUTE, so the compute stage does not run before the draw stage. -/
theorem renderStages_compute_after_draw :
    renderStageOrder =
      some ["first", PRE_UPDATE, "update", POST_UPDATE, "last", "load_assets",
        ASSET_EVENTS, RENDER_RESOURCE, RENDER_GRAPH_SYSTEMS, DRAW, RENDER,
        POST_RENDER, COMPUTE] ∧
    (["first", PRE_UPDATE, "update", POST_UPDATE, "last", "load_assets",
        ASSET_EVENTS, RENDER_RESOURCE, RENDER_GRAPH_SYSTEMS, DRAW, RENDER,
        POST_RENDER, COMPUTE] : List String).indexOf DRAW <
      (["first", PRE_UPDATE, "update", POST_UPDATE, "last", "load_assets",
        ASSET_EVENTS, RENDER_RESOURCE, RENDER_GRAPH_SYSTEMS, DRAW, RENDER,
        POST_RENDER, COMPUTE] : List String).indexOf COMPUTE ∧
    (["first", PRE_UPDATE, "update", POST_UPDATE, "last", "load_assets",
        ASSET_EVENTS, RENDER_RESOURCE, RENDER_GRAPH_SYSTEMS, DRAW, RENDER,
        POST_RENDER, COMPUTE] : List String).indexOf POST_RENDER <
      (["first", PRE_UPDATE, "update", POST_UPDATE, "last", "load_assets",
        ASSET_EVENTS, RENDER_RESOURCE, RENDER_GRAPH_SYSTEMS, DRAW, RENDER,
        POST_RENDER, COMPUTE] : List String).indexOf COMPUTE ∧
    systemsInStage RENDER_RESOURCE =
      [mesh_resource_provider_system, texture_resource_system] ∧
    systemsInStage RENDER_GRAPH_SYSTEMS =
      [render_graph_schedule_executor_system] ∧
    systemsInStage COMPUTE = [dispatch_compute_pipelines_system] ∧
    systemsInStage DRAW = [draw_render_pipelines_system] ∧
    systemsInStage POST_RENDER = [clear_shader_defs_system] ∧
    systemsInStage RENDER = [] := by
  decide

/-- C7 counterexample: it is not the case that both per-frame clearing
systems run in the post-render stage — `clear_draw_system` is not registered
there. -/
theorem clear_systems_not_both_post_render :
    ¬ (clear_shader_defs_system ∈ systemsInStage POST_RENDER ∧
       clear_draw_system ∈ systemsInStage POST_RENDER) := by
  decide

/-- C7 as amended: the post-render stage clears the transient shader defs
(`clear_shader_defs_system` is its only system), while the draw lists are
cleared by `clear_draw_system` registered in PRE_UPDATE — the start of the
next frame — not in post-render. -/
theorem clear_systems_stages :
    systemsInStage POST_RENDER = [clear_shader_defs_system] ∧
    systemsInStage PRE_UPDATE = [clear_draw_system] ∧
    clear_draw_system ∉ systemsInStage POST_RENDER := by
  decide

/-- C8: within the POST_UPDATE stage, the visible-entities system is
registered after the active-cameras system and after every
`camera_system::<T>`, so it runs only after all of them each frame. -/
theorem visible_entities_after_cameras :
    visible_entities_system ∈ systemsInStage POST_UPDATE ∧
    (systemsInStage POST_UPDATE).indexOf active_cameras_system <
      (systemsInStage POST_UPDATE).indexOf visible_entities_system ∧
    (systemsInStage POST_UPDATE).indexOf camera_system_orthographic <
      (systemsInStage POST_UPDATE).indexOf visible_entities_system ∧
    (systemsInStage POST_UPDATE).indexOf camera_system_perspective <
      (systemsInStage POST_UPDATE).indexOf visible_entities_system := by
  decide

end BevyRender
